import Mathlib

set_option maxRecDepth 40000

/-!
Shallow embedding of the fixed-point codec `Floats<T, NBITS>` from
`src/types/floats.rs` of fluidex/common-rs, together with proofs of the
spec's claims about it.

Modelling conventions:
* The const generics and the integer type `T` are bundled in `FCfg`:
  whether `T` is signed, its native bit width (`T::zero().count_zeros()`),
  and `NBITS`.
* `T` values are carried as unbounded `Int`; the `T::from(..)` checked
  conversions of the source become explicit range tests (`inT`).
* Machine loops (`while` in `from_bigint`, `loop` in `from_decimal`)
  become fuel-indexed structural recursion; `none` models a call that does
  not return normally (fuel exhaustion stands in for divergence, and
  guarded arithmetic overflow / failed `unwrap()` / failed `assert!`
  stand in for panics).
* `rust_decimal::Decimal` is modelled as a mantissa/scale pair whose value
  is `m / 10^scale`; the library invariants (|mantissa| < 2^96, scale ≤ 28)
  appear as hypotheses where a proof needs them.
* `num_bigint::BigInt` is `Int`; its `/` truncates toward zero, which is
  `Int.tdiv`.
-/

namespace Fluidex

/-- Configuration of one `Floats<T, NBITS>` instantiation: whether the Rust
integer type `T` is signed, its native bit width `effBits`
(`T::zero().count_zeros()` in `from_bigint`/`from_decimal`), and the
`NBITS` const generic. -/
structure FCfg where
  signed : Bool
  effBits : Nat
  nbits : Nat
deriving DecidableEq

/-- The struct `Floats<T, NBITS>`: a `u8` exponent and a significand of
type `T` (modelled as an unbounded integer; theorems carry range facts). -/
structure Floats where
  exponent : Nat
  significand : Int
deriving DecidableEq

/-- A `rust_decimal::Decimal`: mantissa `m` scaled down by `10^scale`,
i.e. the numeric value `m / 10^scale`. -/
structure Dec where
  m : Int
  scale : Nat
deriving DecidableEq

/-- `rust_decimal` equality (`==` on `Decimal`) compares numeric values,
not raw mantissa/scale pairs. -/
def decValEq (a b : Dec) : Prop :=
  a.m * 10 ^ b.scale = b.m * 10 ^ a.scale

/-- The error enum `FloatsError` of `src/types/floats.rs`. -/
inductive FloatsError where
  | Precision (d : Dec) (prec : Nat)
  | InvalidPrecision (d : Dec) (prec : Nat) (d2 : Dec)
  | TryFromSlice
  | ParseInt
  | Demical
  | ExponentTooBig
  | NumberTooBig (n : Int)
deriving DecidableEq

/-- Whether `x` is representable in the Rust type `T` described by `cfg`
(the `T::from(..)` checked conversion succeeds). -/
def inT (cfg : FCfg) (x : Int) : Bool :=
  if cfg.signed then
    decide (-(2 ^ (cfg.effBits - 1) : Int) ≤ x ∧ x < 2 ^ (cfg.effBits - 1))
  else
    decide ((0 : Int) ≤ x ∧ x < 2 ^ cfg.effBits)

/-- `encode_len() = (NBITS + 8 - NBITS % 8) / 8`. -/
def encode_len (cfg : FCfg) : Nat :=
  (cfg.nbits + 8 - cfg.nbits % 8) / 8

/-- `max_exp = (1 << (8 - NBITS % 8)) - 1`, as appearing in
`to_encoded_int` and `from_bigint`. -/
def max_exp (cfg : FCfg) : Nat :=
  2 ^ (8 - cfg.nbits % 8) - 1

/-- `test_low_bound = T::min_value() >> (eff_bits - NBITS)`: the arithmetic
shift of `-2^(effBits-1)` by `effBits - NBITS` is `-2^(NBITS-1)` for signed
`T`, and `0` for unsigned `T`. -/
def test_low_bound (cfg : FCfg) : Int :=
  if cfg.signed then -(2 ^ (cfg.nbits - 1)) else 0

/-- `test_high_bound = T::max_value() >> (eff_bits - NBITS)`: the shift of
`2^(effBits-1) - 1` (resp. `2^effBits - 1`) by `effBits - NBITS` is
`2^(NBITS-1) - 1` for signed `T`, and `2^NBITS - 1` for unsigned `T`. -/
def test_high_bound (cfg : FCfg) : Int :=
  if cfg.signed then 2 ^ (cfg.nbits - 1) - 1 else 2 ^ cfg.nbits - 1

/-- `to_bigint(): BigInt::from(10).pow(exponent) * sig_to_bigint()`. -/
def to_bigint (v : Floats) : Int :=
  10 ^ v.exponent * v.significand

/-- `to_encoded_int()`: reject `exponent > max_exp`; zero significand
encodes as `0`; a positive significand is placed below the exponent field;
a negative one is stored in `NBITS`-bit two's complement
(`(1 << NBITS) + sig`). -/
def to_encoded_int (cfg : FCfg) (v : Floats) : Except FloatsError Int :=
  if v.exponent > max_exp cfg then .error .ExponentTooBig
  else if v.significand = 0 then .ok 0
  else if 0 < v.significand then
    .ok ((v.exponent : Int) * 2 ^ cfg.nbits + v.significand)
  else
    .ok ((v.exponent : Int) * 2 ^ cfg.nbits + (2 ^ cfg.nbits + v.significand))

/-- Minimal big-endian base-256 digits of a natural number, as produced by
`BigInt::to_bytes_be` on the magnitude (`0` yields the single byte `0`).
Structural fuel recursion; `natBytesBE` supplies sufficient fuel. -/
def natBytesBEAux : Nat → Nat → List Nat
  | 0, _ => []
  | fuel + 1, n => if n < 256 then [n] else natBytesBEAux fuel (n / 256) ++ [n % 256]

/-- Big-endian bytes of a natural number (`BigInt::to_bytes_be` magnitude). -/
def natBytesBE (n : Nat) : List Nat :=
  natBytesBEAux (n + 1) n

/-- `BigInt::from_bytes_be(Sign::Plus, data)`. -/
def bytesToNat (data : List Nat) : Nat :=
  data.foldl (fun acc b => acc * 256 + b) 0

/-- `encode()`: `to_encoded_int().unwrap()` (the panic is `none`), then the
magnitude's big-endian bytes, left-padded with zero bytes to `encode_len()`
(the `usize` subtraction would panic if the bytes were too many, also
`none`). -/
def encode (cfg : FCfg) (v : Floats) : Option (List Nat) :=
  match to_encoded_int cfg v with
  | .error _ => none
  | .ok bi =>
    let bytes := natBytesBE bi.natAbs
    if bytes.length ≤ encode_len cfg then
      some (List.replicate (encode_len cfg - bytes.length) 0 ++ bytes)
    else none

/-- `from_encoded_bigint(bi)`: `assert!(NBITS < 120)`, drop the sign of
`bi`, split into the low-`NBITS` significand field and the remaining
exponent bits, undo `NBITS`-bit two's complement for signed `T` when the
field exceeds `signed_max = 1 << (NBITS - 1)`, convert into `T`
(`NumberTooBig` on failure), and finally narrow the exponent to `u8`
(`ExponentTooBig` on failure). -/
def from_encoded_bigint (cfg : FCfg) (bi : Int) : Option (Except FloatsError Floats) :=
  if ¬ cfg.nbits < 120 then none
  else
    let b : Nat := (if 0 < bi then bi else -bi).toNat
    let sigField : Nat := b % 2 ^ cfg.nbits
    let expo : Nat := b / 2 ^ cfg.nbits
    let sig : Option Int :=
      if cfg.signed then
        if sigField ≤ 2 ^ (cfg.nbits - 1) then
          if inT cfg (sigField : Int) then some (sigField : Int) else none
        else
          if inT cfg ((sigField : Int) - 2 ^ cfg.nbits) then
            some ((sigField : Int) - 2 ^ cfg.nbits)
          else none
      else
        if inT cfg (sigField : Int) then some (sigField : Int) else none
    match sig with
    | none => some (.error (.NumberTooBig (b : Int)))
    | some s =>
      if expo ≤ 255 then some (.ok ⟨expo, s⟩)
      else some (.error .ExponentTooBig)

/-- `decode(data)`: parse big-endian bytes as a non-negative integer and
delegate to `from_encoded_bigint`.  There is no length check. -/
def decode (cfg : FCfg) (data : List Nat) : Option (Except FloatsError Floats) :=
  from_encoded_bigint cfg ((bytesToNat data : Nat) : Int)

/-- `to_decimal(prec)`: `Decimal::from_i128(significand).unwrap()` (panic
when the mantissa does not fit 96 bits); if `exponent < prec` set the scale
to `prec - exponent` (`set_scale(..).unwrap()` panics above 28); otherwise
multiply by `10^(exponent - prec)` (the `Decimal` power/multiplication
panics when the result does not fit 96 bits). -/
def to_decimal (prec : Nat) (v : Floats) : Option Dec :=
  if ¬ v.significand.natAbs < 2 ^ 96 then none
  else if v.exponent < prec then
    if prec - v.exponent ≤ 28 then some ⟨v.significand, prec - v.exponent⟩
    else none
  else
    if v.exponent - prec ≤ 28 ∧ (v.significand * 10 ^ (v.exponent - prec)).natAbs < 2 ^ 96 then
      some ⟨v.significand * 10 ^ (v.exponent - prec), 0⟩
    else none

/-- The `while` loop of `from_bigint`: strip a factor of ten while the
division is exact and `exponent <= max_exp`, incrementing the `u8`
exponent (whose overflow is the guarded `none`). -/
def stripLoop (cfg : FCfg) : Nat → Int → Nat → Option (Int × Nat)
  | 0, _, _ => none
  | fuel + 1, encInt, expo =>
    if Int.tdiv encInt 10 * 10 = encInt ∧ expo ≤ max_exp cfg then
      if 255 < expo + 1 then none
      else stripLoop cfg fuel (Int.tdiv encInt 10) (expo + 1)
    else some (encInt, expo)

/-- `from_bigint(bi)`: `assert!(eff_bits > NBITS && eff_bits <= 128)`, run
the ten-stripping loop from exponent `0`, convert the remaining integer to
`i128`/`u128` and then into `T` (each failure is `NumberTooBig`), and
reject a significand outside `test_low_bound ..= test_high_bound`. -/
def from_bigint (cfg : FCfg) (fuel : Nat) (bi : Int) : Option (Except FloatsError Floats) :=
  if ¬ (cfg.nbits < cfg.effBits ∧ cfg.effBits ≤ 128) then none
  else
    match stripLoop cfg fuel bi 0 with
    | none => none
    | some (encInt, expo) =>
      let sig : Option Int :=
        if cfg.signed then
          if -(2 ^ 127 : Int) ≤ encInt ∧ encInt < 2 ^ 127 then
            if inT cfg encInt then some encInt else none
          else none
        else
          if (0 : Int) ≤ encInt ∧ encInt < 2 ^ 128 then
            if inT cfg encInt then some encInt else none
          else none
      match sig with
      | none => some (.error (.NumberTooBig bi))
      | some s =>
        if test_high_bound cfg < s ∨ s < test_low_bound cfg then
          some (.error (.NumberTooBig bi))
        else some (.ok ⟨expo, s⟩)

/-- The `loop` of `from_decimal`: divide by ten (truncating) while the
value is out of bounds **or** the division is exact, incrementing the
exponent each time. -/
def decLoop (cfg : FCfg) : Nat → Int → Nat → Option (Int × Nat)
  | 0, _, _ => none
  | fuel + 1, test, expo =>
    if test_high_bound cfg < test ∨ test < test_low_bound cfg ∨
        Int.tdiv test 10 * 10 = test then
      decLoop cfg fuel (Int.tdiv test 10) (expo + 1)
    else some (test, expo)

/-- `from_decimal(d, prec)`: asserts, zero shortcut, rescale `d` so that
its value times `10^prec` becomes the integer `d.m / 10^newScale`
(`set_scale` fails above scale 28, mapped to the `Demical` error; a
non-integer value after rescaling, i.e. `n != n.floor()`, is the
`Precision` error), then the truncating/stripping loop, the `u32 -> u8`
exponent cast (`% 256`), and `T::from(test).unwrap()` (panic is `none`). -/
def from_decimal (cfg : FCfg) (fuel : Nat) (d : Dec) (prec : Nat) :
    Option (Except FloatsError Floats) :=
  if ¬ (cfg.nbits < cfg.effBits ∧ cfg.effBits ≤ 128) then none
  else if d.m = 0 then some (.ok ⟨0, 0⟩)
  else if 28 < (if d.scale < prec then 0 else d.scale - prec) then
    some (.error .Demical)
  else if ¬ d.m % (10 : Int) ^ (if d.scale < prec then 0 else d.scale - prec) = 0 then
    some (.error (.Precision ⟨d.m, if d.scale < prec then 0 else d.scale - prec⟩ prec))
  else
    match decLoop cfg fuel
        (Int.tdiv d.m ((10 : Int) ^ (if d.scale < prec then 0 else d.scale - prec)))
        (if d.scale < prec then prec - d.scale else 0) with
    | none => none
    | some (test, expo) =>
      if inT cfg test then some (.ok ⟨expo % 256, test⟩)
      else none

/-- `pub type Float40 = Floats<i64, 35>;` -/
def Float40 : FCfg := ⟨true, 64, 35⟩

/-- The `Floats<i32, 24>` instantiation used by the repository's tests. -/
def I32N24 : FCfg := ⟨true, 32, 24⟩

/-- The `Floats<i32, 16>` instantiation used by the repository's tests. -/
def I32N16 : FCfg := ⟨true, 32, 16⟩

/-- The significand range the (amended) round-trip claim quantifies over:
the `NBITS`-bit signed range with the most negative value excluded, or the
full `NBITS`-bit unsigned range. -/
def sigInRange (cfg : FCfg) (s : Int) : Prop :=
  if cfg.signed then
    -(2 ^ (cfg.nbits - 1) : Int) < s ∧ s < 2 ^ (cfg.nbits - 1)
  else
    0 ≤ s ∧ s < 2 ^ cfg.nbits

/-! ### Byte-serialization helper lemmas -/

theorem bytesToNat_append (l : List Nat) (b : Nat) :
    bytesToNat (l ++ [b]) = bytesToNat l * 256 + b := by
  simp [bytesToNat, List.foldl_append]

theorem bytesToNat_replicate_zero (k : Nat) (l : List Nat) :
    bytesToNat (List.replicate k 0 ++ l) = bytesToNat l := by
  induction k with
  | zero => rfl
  | succ k ih => simpa [bytesToNat, List.replicate_succ] using ih

theorem bytesToNat_natBytesBEAux (fuel n : Nat) (h : n < fuel) :
    bytesToNat (natBytesBEAux fuel n) = n := by
  induction fuel generalizing n with
  | zero => omega
  | succ fuel ih =>
    rw [natBytesBEAux]
    split
    · simp [bytesToNat]
    · rw [bytesToNat_append, ih (n / 256) (by omega)]
      omega

theorem bytesToNat_natBytesBE (n : Nat) : bytesToNat (natBytesBE n) = n :=
  bytesToNat_natBytesBEAux (n + 1) n (Nat.lt_succ_self n)

theorem natBytesBEAux_length (fuel : Nat) : ∀ n L, n < fuel → 1 ≤ L → n < 256 ^ L →
    (natBytesBEAux fuel n).length ≤ L := by
  induction fuel with
  | zero => intro n L h; omega
  | succ fuel ih =>
    intro n L h hL hpow
    rw [natBytesBEAux]
    split
    · simpa using hL
    · rename_i hn
      match L, hL with
      | 1, _ => simp at hpow; omega
      | L + 2, _ =>
        rw [List.length_append, List.length_singleton]
        have hdiv : n / 256 < 256 ^ (L + 1) := by
          rw [Nat.div_lt_iff_lt_mul (by norm_num)]
          calc n < 256 ^ (L + 2) := hpow
            _ = 256 ^ (L + 1) * 256 := by rw [pow_succ]
        have := ih (n / 256) (L + 1) (by omega) (by omega) hdiv
        omega

theorem natBytesBE_length (n L : Nat) (hL : 1 ≤ L) (hpow : n < 256 ^ L) :
    (natBytesBE n).length ≤ L :=
  natBytesBEAux_length (n + 1) n L (Nat.lt_succ_self n) hL hpow

theorem encode_len_pos (cfg : FCfg) : 1 ≤ encode_len cfg := by
  unfold encode_len
  omega

/-- The packed integer `e * 2^NBITS + F` fits in `encode_len` bytes. -/
theorem enc_lt (cfg : FCfg) (e F : Nat) (he : e ≤ max_exp cfg)
    (hF : F < 2 ^ cfg.nbits) :
    e * 2 ^ cfg.nbits + F < 256 ^ encode_len cfg := by
  have h8 : 8 * encode_len cfg = cfg.nbits + (8 - cfg.nbits % 8) := by
    unfold encode_len
    omega
  have h256 : (256 : Nat) ^ encode_len cfg =
      2 ^ cfg.nbits * 2 ^ (8 - cfg.nbits % 8) := by
    have h2 : (256 : Nat) = 2 ^ 8 := by norm_num
    rw [h2, ← pow_mul, h8, pow_add]
  have hme : max_exp cfg = 2 ^ (8 - cfg.nbits % 8) - 1 := rfl
  have hpos : 0 < (2 : Nat) ^ (8 - cfg.nbits % 8) := Nat.pos_pow_of_pos _ (by norm_num)
  have h1 : e + 1 ≤ 2 ^ (8 - cfg.nbits % 8) := by omega
  have h2 : (e + 1) * 2 ^ cfg.nbits ≤ 2 ^ (8 - cfg.nbits % 8) * 2 ^ cfg.nbits :=
    Nat.mul_le_mul_right _ h1
  calc e * 2 ^ cfg.nbits + F < (e + 1) * 2 ^ cfg.nbits := by
        rw [Nat.succ_mul]; omega
    _ ≤ 2 ^ (8 - cfg.nbits % 8) * 2 ^ cfg.nbits := h2
    _ = 256 ^ encode_len cfg := by rw [h256, Nat.mul_comm]

/-- When `to_encoded_int` yields the (nonnegative) integer `E` and `E` fits
the fixed byte budget, `encode` succeeds and the emitted buffer parses back
to `E`. -/
theorem encode_eq (cfg : FCfg) (v : Floats) (E : Nat)
    (henc : to_encoded_int cfg v = .ok ((E : Nat) : Int))
    (hE : E < 256 ^ encode_len cfg) :
    ∃ bs, encode cfg v = some bs ∧ bytesToNat bs = E ∧
      bs = List.replicate (encode_len cfg - (natBytesBE E).length) 0 ++ natBytesBE E := by
  have hlen : (natBytesBE E).length ≤ encode_len cfg :=
    natBytesBE_length E _ (encode_len_pos cfg) hE
  refine ⟨_, ?_, ?_, rfl⟩
  · unfold encode
    rw [henc]
    simp only [Int.natAbs_ofNat]
    rw [if_pos hlen]
  · rw [bytesToNat_replicate_zero, bytesToNat_natBytesBE]

theorem absNat_cast (m : Nat) :
    (if (0 : Int) < (m : Int) then (m : Int) else -(m : Int)).toNat = m := by
  split
  · exact Int.toNat_natCast m
  · rename_i h
    have : m = 0 := by omega
    simp [this]

/-! ### `from_encoded_bigint` on a packed field `e * 2^NBITS + F` -/

theorem inT_eq_true_of_signed (cfg : FCfg) (x : Int) (hs : cfg.signed = true)
    (hlo : -(2 ^ (cfg.effBits - 1) : Int) ≤ x) (hhi : x < 2 ^ (cfg.effBits - 1)) :
    inT cfg x = true := by
  simp [inT, hs]
  exact ⟨hlo, hhi⟩

theorem inT_eq_true_of_unsigned (cfg : FCfg) (x : Int) (hs : cfg.signed = false)
    (hlo : (0 : Int) ≤ x) (hhi : x < 2 ^ cfg.effBits) :
    inT cfg x = true := by
  simp [inT, hs]
  exact ⟨hlo, hhi⟩

theorem pack_mod (cfg : FCfg) (e F : Nat) (hFn : F < 2 ^ cfg.nbits) :
    (e * 2 ^ cfg.nbits + F) % 2 ^ cfg.nbits = F := by
  rw [Nat.mul_comm, Nat.mul_add_mod]
  exact Nat.mod_eq_of_lt hFn

theorem pack_div (cfg : FCfg) (e F : Nat) (hFn : F < 2 ^ cfg.nbits) :
    (e * 2 ^ cfg.nbits + F) / 2 ^ cfg.nbits = e := by
  rw [Nat.mul_comm, Nat.mul_add_div (Nat.pos_pow_of_pos _ (by norm_num)),
    Nat.div_eq_of_lt hFn]
  omega

/-- Decoding a packed nonnegative integer whose significand field does not
exceed `signed_max = 2^(NBITS-1)`: the field is taken as a positive
significand (this includes the boundary field `2^(NBITS-1)` itself). -/
theorem feb_signed_pos (cfg : FCfg) (e F : Nat) (hs : cfg.signed = true)
    (h1 : 1 ≤ cfg.nbits) (h2 : cfg.nbits < cfg.effBits) (h3 : cfg.nbits < 120)
    (he : e ≤ 255) (hF : F ≤ 2 ^ (cfg.nbits - 1)) (hFn : F < 2 ^ cfg.nbits) :
    from_encoded_bigint cfg ((e * 2 ^ cfg.nbits + F : Nat) : Int) =
      some (.ok ⟨e, (F : Int)⟩) := by
  have hped : 2 ^ (cfg.nbits - 1) < 2 ^ (cfg.effBits - 1) :=
    pow_lt_pow_right₀ (by norm_num) (by omega)
  have hint : inT cfg (F : Int) = true := by
    refine inT_eq_true_of_signed cfg _ hs ?_ ?_
    · have : (0 : Int) ≤ (F : Int) := Int.natCast_nonneg F
      have hp : (0 : Int) ≤ 2 ^ (cfg.effBits - 1) := by positivity
      omega
    · exact_mod_cast lt_of_le_of_lt hF hped
  unfold from_encoded_bigint
  rw [if_neg (by omega)]
  simp only [absNat_cast, pack_mod cfg e F hFn, pack_div cfg e F hFn, hs,
    if_true, hint, if_pos hF, if_pos he]

/-- Decoding a packed nonnegative integer whose significand field exceeds
`signed_max`: the field is un-two's-complemented to `F - 2^NBITS`. -/
theorem feb_signed_neg (cfg : FCfg) (e F : Nat) (hs : cfg.signed = true)
    (h1 : 1 ≤ cfg.nbits) (h2 : cfg.nbits < cfg.effBits) (h3 : cfg.nbits < 120)
    (he : e ≤ 255) (hF : 2 ^ (cfg.nbits - 1) < F) (hFn : F < 2 ^ cfg.nbits) :
    from_encoded_bigint cfg ((e * 2 ^ cfg.nbits + F : Nat) : Int) =
      some (.ok ⟨e, (F : Int) - 2 ^ cfg.nbits⟩) := by
  have hple : 2 ^ (cfg.nbits - 1) < 2 ^ (cfg.effBits - 1) :=
    pow_lt_pow_right₀ (by norm_num) (by omega)
  have hsplit : 2 ^ (cfg.nbits - 1) + 2 ^ (cfg.nbits - 1) = 2 ^ cfg.nbits := by
    have h1 : 1 ≤ cfg.nbits := by
      by_contra h
      have : cfg.nbits = 0 := by omega
      rw [this] at hF hFn
      simp at hF hFn
      omega
    calc 2 ^ (cfg.nbits - 1) + 2 ^ (cfg.nbits - 1) = 2 ^ (cfg.nbits - 1) * 2 := by ring
      _ = 2 ^ (cfg.nbits - 1 + 1) := by rw [pow_succ]
      _ = 2 ^ cfg.nbits := by congr 1; omega
  have hint : inT cfg ((F : Int) - 2 ^ cfg.nbits) = true := by
    refine inT_eq_true_of_signed cfg _ hs ?_ ?_
    · have hcast : ((2 ^ (cfg.nbits - 1) : Nat) : Int) < ((2 ^ (cfg.effBits - 1) : Nat) : Int) := by
        exact_mod_cast hple
      have hF' : ((2 ^ (cfg.nbits - 1) : Nat) : Int) < (F : Int) := by exact_mod_cast hF
      have hsplit' : ((2 ^ (cfg.nbits - 1) : Nat) : Int) + ((2 ^ (cfg.nbits - 1) : Nat) : Int) =
          ((2 ^ cfg.nbits : Nat) : Int) := by exact_mod_cast hsplit
      push_cast at hcast hF' hsplit' ⊢
      omega
    · have hFn' : (F : Int) < ((2 ^ cfg.nbits : Nat) : Int) := by exact_mod_cast hFn
      have hp : (0 : Int) < 2 ^ (cfg.effBits - 1) := by positivity
      push_cast at hFn'
      omega
  unfold from_encoded_bigint
  rw [if_neg (by omega)]
  simp only [absNat_cast, pack_mod cfg e F hFn, pack_div cfg e F hFn, hs,
    if_true, hint, if_neg (by omega : ¬ F ≤ 2 ^ (cfg.nbits - 1)), if_pos he]

/-- Decoding a packed nonnegative integer for unsigned `T`: the field is
the significand as-is. -/
theorem feb_unsigned (cfg : FCfg) (e F : Nat) (hs : cfg.signed = false)
    (h2 : cfg.nbits < cfg.effBits) (h3 : cfg.nbits < 120)
    (he : e ≤ 255) (hFn : F < 2 ^ cfg.nbits) :
    from_encoded_bigint cfg ((e * 2 ^ cfg.nbits + F : Nat) : Int) =
      some (.ok ⟨e, (F : Int)⟩) := by
  have hped : 2 ^ cfg.nbits < 2 ^ cfg.effBits :=
    pow_lt_pow_right₀ (by norm_num) (by omega)
  have hint : inT cfg (F : Int) = true := by
    refine inT_eq_true_of_unsigned cfg _ hs (Int.natCast_nonneg F) ?_
    exact_mod_cast lt_of_lt_of_le (lt_of_lt_of_le hFn (le_of_lt hped)) le_rfl
  unfold from_encoded_bigint
  rw [if_neg (by omega)]
  simp only [absNat_cast, pack_mod cfg e F hFn, pack_div cfg e F hFn, hs,
    Bool.false_eq_true, if_false, hint, if_true, if_pos he]

/-! ### `to_encoded_int` case analysis -/

theorem two_pow_split (n : Nat) (h : 1 ≤ n) : 2 ^ (n - 1) + 2 ^ (n - 1) = 2 ^ n := by
  calc 2 ^ (n - 1) + 2 ^ (n - 1) = 2 ^ (n - 1) * 2 := by ring
    _ = 2 ^ (n - 1 + 1) := by rw [pow_succ]
    _ = 2 ^ n := by congr 1; omega

theorem tei_zero (cfg : FCfg) (v : Floats) (he : v.exponent ≤ max_exp cfg)
    (h0 : v.significand = 0) :
    to_encoded_int cfg v = .ok ((0 : Nat) : Int) := by
  unfold to_encoded_int
  rw [if_neg (by omega), if_pos h0]
  rfl

theorem tei_pos (cfg : FCfg) (v : Floats) (he : v.exponent ≤ max_exp cfg)
    (hp : 0 < v.significand) :
    to_encoded_int cfg v =
      .ok ((v.exponent * 2 ^ cfg.nbits + v.significand.toNat : Nat) : Int) := by
  unfold to_encoded_int
  rw [if_neg (by omega), if_neg (by omega), if_pos hp]
  congr 1
  push_cast [Int.toNat_of_nonneg (le_of_lt hp)]
  ring

theorem tei_neg (cfg : FCfg) (v : Floats) (he : v.exponent ≤ max_exp cfg)
    (hn : v.significand < 0) (hlo : -(2 ^ cfg.nbits : Int) < v.significand) :
    to_encoded_int cfg v =
      .ok ((v.exponent * 2 ^ cfg.nbits +
            ((2 ^ cfg.nbits : Int) + v.significand).toNat : Nat) : Int) := by
  unfold to_encoded_int
  rw [if_neg (by omega), if_neg (by omega), if_neg (by omega)]
  congr 1
  have h0 : (0 : Int) ≤ 2 ^ cfg.nbits + v.significand := by omega
  push_cast [Int.toNat_of_nonneg h0]
  ring

theorem max_exp_le_255 (cfg : FCfg) : max_exp cfg ≤ 255 := by
  unfold max_exp
  have : (2 : Nat) ^ (8 - cfg.nbits % 8) ≤ 2 ^ 8 :=
    Nat.pow_le_pow_right (by norm_num) (by omega)
  omega

/-- C1 (amended): `decode(encode(v))` reproduces `v` exactly for every
valid value whose signed significand is not the excluded most negative
value `-2^(NBITS-1)`. -/
theorem C1_roundtrip (cfg : FCfg) (v : Floats)
    (h1 : 1 ≤ cfg.nbits) (h2 : cfg.nbits < cfg.effBits) (h3 : cfg.nbits < 120)
    (hsig : sigInRange cfg v.significand)
    (hexp : v.exponent ≤ max_exp cfg)
    (hzero : v.significand = 0 → v.exponent = 0) :
    (encode cfg v).bind (decode cfg) = some (.ok v) := by
  obtain ⟨e, s⟩ := v
  simp only at hsig hexp hzero
  have he255 : e ≤ 255 := le_trans hexp (max_exp_le_255 cfg)
  have hcn : ((2 ^ cfg.nbits : Nat) : Int) = 2 ^ cfg.nbits := by push_cast; ring
  have hcn1 : ((2 ^ (cfg.nbits - 1) : Nat) : Int) = 2 ^ (cfg.nbits - 1) := by
    push_cast; ring
  have hsplit := two_pow_split cfg.nbits h1
  rcases lt_trichotomy s 0 with hneg | hzr | hpos
  · -- negative significand: only possible for signed T
    have hsgn : cfg.signed = true := by
      by_contra h
      have : cfg.signed = false := by
        cases hb : cfg.signed
        · rfl
        · exact absurd hb h
      rw [sigInRange, this] at hsig
      simp at hsig
      omega
    rw [sigInRange, hsgn] at hsig
    simp only [if_true] at hsig
    have hslo : -(2 ^ (cfg.nbits - 1) : Int) < s := hsig.1
    have hlo : -(2 ^ cfg.nbits : Int) < s := by
      have : (2 ^ (cfg.nbits - 1) : Int) ≤ 2 ^ cfg.nbits := by
        rw [← hcn1, ← hcn]
        exact_mod_cast Nat.pow_le_pow_right (by norm_num) (by omega)
      omega
    have henc := tei_neg cfg ⟨e, s⟩ hexp hneg hlo
    set F : Nat := ((2 ^ cfg.nbits : Int) + s).toNat with hFdef
    have hFcast : (F : Int) = 2 ^ cfg.nbits + s := by
      rw [hFdef]
      exact Int.toNat_of_nonneg (by omega)
    have hFhi : 2 ^ (cfg.nbits - 1) < F := by
      have hs1 : -((2 ^ (cfg.nbits - 1) : Nat) : Int) < s := by rw [hcn1]; exact hslo
      have hsp : ((2 ^ (cfg.nbits - 1) : Nat) : Int) + ((2 ^ (cfg.nbits - 1) : Nat) : Int)
          = ((2 ^ cfg.nbits : Nat) : Int) := by exact_mod_cast hsplit
      omega
    have hFn : F < 2 ^ cfg.nbits := by
      have : (F : Int) < ((2 ^ cfg.nbits : Nat) : Int) := by
        rw [hFcast, hcn]
        omega
      exact_mod_cast this
    have hElt : e * 2 ^ cfg.nbits + F < 256 ^ encode_len cfg := enc_lt cfg e F hexp hFn
    obtain ⟨bs, hbs, hval, _⟩ := encode_eq cfg ⟨e, s⟩ _ henc hElt
    rw [hbs]
    show decode cfg bs = some (.ok ⟨e, s⟩)
    rw [decode, hval, feb_signed_neg cfg e F hsgn h1 h2 h3 he255 hFhi hFn]
    have : (F : Int) - 2 ^ cfg.nbits = s := by rw [hFcast]; ring
    rw [this]
  · -- zero significand: canonical zero round-trips to itself
    subst hzr
    have he0 : e = 0 := hzero rfl
    subst he0
    have henc := tei_zero cfg ⟨0, 0⟩ hexp rfl
    have hElt : (0 : Nat) < 256 ^ encode_len cfg := by positivity
    obtain ⟨bs, hbs, hval, _⟩ := encode_eq cfg ⟨0, 0⟩ 0 henc hElt
    rw [hbs]
    show decode cfg bs = some (.ok ⟨0, 0⟩)
    rw [decode, hval]
    have hz : (0 : Nat) = 0 * 2 ^ cfg.nbits + 0 := by ring
    rw [hz]
    cases hsgn : cfg.signed
    · rw [feb_unsigned cfg 0 0 hsgn h2 h3 (by omega) (by positivity)]
      simp
    · rw [feb_signed_pos cfg 0 0 hsgn h1 h2 h3 (by omega) (Nat.zero_le _) (by positivity)]
      simp
  · -- positive significand
    have henc := tei_pos cfg ⟨e, s⟩ hexp hpos
    set F : Nat := s.toNat with hFdef
    have hFcast : (F : Int) = s := Int.toNat_of_nonneg (le_of_lt hpos)
    cases hsgn : cfg.signed
    · rw [sigInRange, hsgn] at hsig
      simp only [Bool.false_eq_true, if_false] at hsig
      have hFn : F < 2 ^ cfg.nbits := by
        have : (F : Int) < ((2 ^ cfg.nbits : Nat) : Int) := by
          rw [hFcast, hcn]; exact hsig.2
        exact_mod_cast this
      have hElt := enc_lt cfg e F hexp hFn
      obtain ⟨bs, hbs, hval, _⟩ := encode_eq cfg ⟨e, s⟩ _ henc hElt
      rw [hbs]
      show decode cfg bs = some (.ok ⟨e, s⟩)
      rw [decode, hval, feb_unsigned cfg e F hsgn h2 h3 he255 hFn, hFcast]
    · rw [sigInRange, hsgn] at hsig
      simp only [if_true] at hsig
      have hFle : F ≤ 2 ^ (cfg.nbits - 1) := by
        have : (F : Int) < ((2 ^ (cfg.nbits - 1) : Nat) : Int) := by
          rw [hFcast, hcn1]; exact hsig.2
        omega
      have hFn : F < 2 ^ cfg.nbits := by omega
      have hElt := enc_lt cfg e F hexp hFn
      obtain ⟨bs, hbs, hval, _⟩ := encode_eq cfg ⟨e, s⟩ _ henc hElt
      rw [hbs]
      show decode cfg bs = some (.ok ⟨e, s⟩)
      rw [decode, hval, feb_signed_pos cfg e F hsgn h1 h2 h3 he255 hFle hFn, hFcast]

instance sigInRangeDecidable (cfg : FCfg) (s : Int) : Decidable (sigInRange cfg s) := by
  unfold sigInRange
  infer_instance

instance decValEqDecidable (a b : Dec) : Decidable (decValEq a b) := by
  unfold decValEq
  infer_instance

/-- `decode` of an all-zero buffer of any length (including the wrong one)
succeeds with the canonical zero. -/
theorem decode_replicate_zero (cfg : FCfg) (k : Nat)
    (h1 : 1 ≤ cfg.nbits) (h2 : cfg.nbits < cfg.effBits) (h3 : cfg.nbits < 120) :
    decode cfg (List.replicate k 0) = some (.ok ⟨0, 0⟩) := by
  have hz : bytesToNat (List.replicate k 0) = 0 := by
    have h := bytesToNat_replicate_zero k []
    rwa [List.append_nil] at h
  rw [decode, hz]
  have h00 : ((0 : Nat) : Int) = ((0 * 2 ^ cfg.nbits + 0 : Nat) : Int) := by norm_num
  rw [h00]
  cases hsgn : cfg.signed
  · rw [feb_unsigned cfg 0 0 hsgn h2 h3 (by omega) (by positivity)]
    simp
  · rw [feb_signed_pos cfg 0 0 hsgn h1 h2 h3 (by omega) (Nat.zero_le _) (by positivity)]
    simp

/-! ### Claim C1 -/

/-- C1 counterexample: on `Floats<i32, 16>` the value
`{exponent: 0, significand: -32768}` is valid in the claim's sense
(`-32768 = -2^(NBITS-1)` is inside the signed `NBITS`-bit range), yet
`decode(encode(v))` returns significand `+32768`, not `-32768`. -/
theorem C1_counterexample :
    (encode I32N16 ⟨0, -32768⟩).bind (decode I32N16) = some (.ok ⟨0, 32768⟩) ∧
    (⟨0, 32768⟩ : Floats) ≠ ⟨0, -32768⟩ ∧
    -(2 ^ (I32N16.nbits - 1) : Int) ≤ -32768 ∧ I32N16.signed = true :=
  ⟨rfl, by decide, by decide, rfl⟩

/-- C1 witness: a concrete valid `Float40` value round-trips. -/
theorem C1_roundtrip_witness :
    (encode Float40 ⟨3, -123⟩).bind (decode Float40) = some (.ok ⟨3, -123⟩) :=
  C1_roundtrip Float40 ⟨3, -123⟩ (by decide) (by decide) (by decide)
    (by decide) (by decide) (by decide)

/-! ### Claim C5 -/

/-- C5 counterexample: on `Floats<i32, 16>` the encoded significand field
`32768 = 2^(NBITS-1)` has bit `NBITS-1` set, but decodes to `+32768`, not
to `32768 - 2^NBITS = -32768` as the claim states. -/
theorem C5_counterexample :
    from_encoded_bigint I32N16 32768 = some (.ok ⟨0, 32768⟩) ∧
    (32768 : Int) = 2 ^ (I32N16.nbits - 1) ∧
    (32768 : Int) ≠ 32768 - 2 ^ I32N16.nbits :=
  ⟨rfl, by decide, by decide⟩

/-- C5 (amended): for signed `T` the decoded significand is negative,
equal to `significand_bits - 2^NBITS`, exactly when
`significand_bits > 2^(NBITS-1)`; for `significand_bits ≤ 2^(NBITS-1)` —
including the boundary field `2^(NBITS-1)` itself — it is the field
unchanged. -/
theorem C5_signed_decode (cfg : FCfg) (e F : Nat) (hs : cfg.signed = true)
    (h1 : 1 ≤ cfg.nbits) (h2 : cfg.nbits < cfg.effBits) (h3 : cfg.nbits < 120)
    (he : e ≤ 255) (hFn : F < 2 ^ cfg.nbits) :
    from_encoded_bigint cfg ((e * 2 ^ cfg.nbits + F : Nat) : Int) =
      some (.ok ⟨e, if F ≤ 2 ^ (cfg.nbits - 1) then (F : Int)
                    else (F : Int) - 2 ^ cfg.nbits⟩) := by
  by_cases hF : F ≤ 2 ^ (cfg.nbits - 1)
  · rw [feb_signed_pos cfg e F hs h1 h2 h3 he hF hFn, if_pos hF]
  · rw [feb_signed_neg cfg e F hs h1 h2 h3 he (by omega) hFn, if_neg hF]

/-- C5 witness: a field above `2^(NBITS-1)` decodes to the negative
two's-complement value. -/
theorem C5_signed_decode_witness :
    from_encoded_bigint I32N16 ((1 * 2 ^ I32N16.nbits + 40000 : Nat) : Int) =
      some (.ok ⟨1, if (40000 : Nat) ≤ 2 ^ (I32N16.nbits - 1) then ((40000 : Nat) : Int)
                    else ((40000 : Nat) : Int) - 2 ^ I32N16.nbits⟩) :=
  C5_signed_decode I32N16 1 40000 rfl (by decide) (by decide) (by decide)
    (by decide) (by decide)

/-! ### Claim C7 -/

/-- C7 counterexample: `decode` on `Float40` accepts a 1-byte input even
though `encode_len` is 5, returning `Ok` instead of a length error. -/
theorem C7_counterexample :
    decode Float40 [7] = some (.ok ⟨0, 7⟩) ∧
    [7].length ≠ encode_len Float40 :=
  ⟨rfl, by decide⟩

/-- C7 (amended): `decode` performs no length validation at all — it parses
any big-endian byte string; in particular an all-zero buffer of **any**
length (shorter or longer than `encode_len`) decodes successfully to the
canonical zero. -/
theorem C7_no_length_check (cfg : FCfg) (k : Nat)
    (h1 : 1 ≤ cfg.nbits) (h2 : cfg.nbits < cfg.effBits) (h3 : cfg.nbits < 120) :
    decode cfg (List.replicate k 0) = some (.ok ⟨0, 0⟩) :=
  decode_replicate_zero cfg k h1 h2 h3

/-- C7 witness: a 1-byte all-zero buffer (wrong length for `Float40`)
decodes fine. -/
theorem C7_no_length_check_witness :
    decode Float40 (List.replicate 1 0) = some (.ok ⟨0, 0⟩) ∧
    (List.replicate 1 (0 : Nat)).length ≠ encode_len Float40 :=
  ⟨C7_no_length_check Float40 1 (by decide) (by decide) (by decide), by decide⟩

/-! ### Claim C8 -/

/-- C8 counterexample: on the 24-bit signed type,
`encode({exponent: 0, significand: 65536})` is `[0x00, 0x01, 0x00, 0x00]`,
not `[0x01, 0x01, 0x00, 0x00]` as the claim states. -/
theorem C8_counterexample :
    encode I32N24 ⟨0, 65536⟩ = some [0, 1, 0, 0] ∧
    encode I32N24 ⟨0, 65536⟩ ≠ some [1, 1, 0, 0] :=
  ⟨rfl, by decide⟩

/-- C8 (amended): the byte buffer `[0x01, 0x01, 0x00, 0x00]` is produced
for exponent `1` (as in the repository's own `test_encode`), not
exponent `0`. -/
theorem C8_encode_example : encode I32N24 ⟨1, 65536⟩ = some [1, 1, 0, 0] := rfl

/-! ### Claim C10 -/

/-- C10: any value with significand `0` and in-range exponent `e` packs to
the integer `0`, hence encodes to the all-zero buffer regardless of `e`,
and that buffer decodes to the canonical `{significand: 0, exponent: 0}`;
encoding is therefore not injective on non-canonical zeros. -/
theorem C10_zero_encoding (cfg : FCfg) (e : Nat)
    (h1 : 1 ≤ cfg.nbits) (h2 : cfg.nbits < cfg.effBits) (h3 : cfg.nbits < 120)
    (he : e ≤ max_exp cfg) :
    to_encoded_int cfg ⟨e, 0⟩ = .ok 0 ∧
    encode cfg ⟨e, 0⟩ = some (List.replicate (encode_len cfg) 0) ∧
    decode cfg (List.replicate (encode_len cfg) 0) = some (.ok ⟨0, 0⟩) := by
  have htei : to_encoded_int cfg ⟨e, 0⟩ = .ok ((0 : Nat) : Int) :=
    tei_zero cfg ⟨e, 0⟩ he rfl
  refine ⟨by simpa using htei, ?_, decode_replicate_zero cfg _ h1 h2 h3⟩
  obtain ⟨bs, hbs, hval, hbseq⟩ := encode_eq cfg ⟨e, 0⟩ 0 htei (by positivity)
  rw [hbs, hbseq]
  have hnb : natBytesBE 0 = [0] := rfl
  rw [hnb]
  have hL := encode_len_pos cfg
  have hLsucc : encode_len cfg = (encode_len cfg - 1) + 1 := by omega
  congr 1
  calc List.replicate (encode_len cfg - [(0 : Nat)].length) 0 ++ [0]
      = List.replicate (encode_len cfg - 1) 0 ++ [0] := by rw [List.length_singleton]
    _ = List.replicate ((encode_len cfg - 1) + 1) 0 := (List.replicate_succ' _ _).symm
    _ = List.replicate (encode_len cfg) 0 := by rw [← hLsucc]

/-- C10 witness: on `Float40`, exponent `5` with significand `0` encodes to
five zero bytes which decode to the canonical zero. -/
theorem C10_zero_encoding_witness :
    to_encoded_int Float40 ⟨5, 0⟩ = .ok 0 ∧
    encode Float40 ⟨5, 0⟩ = some (List.replicate (encode_len Float40) 0) ∧
    decode Float40 (List.replicate (encode_len Float40) 0) = some (.ok ⟨0, 0⟩) :=
  C10_zero_encoding Float40 5 (by decide) (by decide) (by decide) (by decide)

/-! ### `from_bigint` loop lemmas, claims C2 and C6 -/

/-- The stripping loop preserves the exponent invariant `e ≤ max_exp + 1`:
it recurses only while `e ≤ max_exp`, so it can overshoot by exactly one. -/
theorem stripLoop_exp_bound (cfg : FCfg) :
    ∀ fuel encInt e r, e ≤ max_exp cfg + 1 → stripLoop cfg fuel encInt e = some r →
      r.2 ≤ max_exp cfg + 1 := by
  intro fuel
  induction fuel with
  | zero =>
    intro encInt e r _ h
    simp [stripLoop] at h
  | succ fuel ih =>
    intro encInt e r he h
    rw [stripLoop] at h
    split at h
    · rename_i hcond
      split at h
      · simp at h
      · exact ih _ (e + 1) r (by omega) h
    · rename_i hcond
      cases h
      simpa using he

/-- On input 0, the stripping loop always sees an exact division, so it
runs until the exponent guard stops it at `max_exp + 1`. -/
theorem stripLoop_zero (cfg : FCfg) (hme : max_exp cfg ≤ 254) :
    ∀ fuel e, e ≤ max_exp cfg + 1 → max_exp cfg + 2 - e ≤ fuel →
      stripLoop cfg fuel 0 e = some (0, max_exp cfg + 1) := by
  intro fuel
  induction fuel with
  | zero =>
    intro e he hf
    omega
  | succ fuel ih =>
    intro e he hf
    rw [stripLoop]
    by_cases hle : e ≤ max_exp cfg
    · rw [if_pos ⟨by simp [Int.zero_tdiv], hle⟩, if_neg (by omega)]
      exact ih (e + 1) (by omega) (by omega)
    · rw [if_neg (fun hc => hle hc.2)]
      have : e = max_exp cfg + 1 := by omega
      rw [this]

theorem test_high_bound_nonneg (cfg : FCfg) : (0 : Int) ≤ test_high_bound cfg := by
  unfold test_high_bound
  split
  · have := pow_pos (by norm_num : (0 : Int) < 2) (cfg.nbits - 1)
    omega
  · have := pow_pos (by norm_num : (0 : Int) < 2) cfg.nbits
    omega

theorem test_low_bound_nonpos (cfg : FCfg) : test_low_bound cfg ≤ 0 := by
  unfold test_low_bound
  split
  · have := pow_pos (by norm_num : (0 : Int) < 2) (cfg.nbits - 1)
    omega
  · norm_num

theorem inT_zero (cfg : FCfg) : inT cfg 0 = true := by
  cases hsgn : cfg.signed
  · refine inT_eq_true_of_unsigned cfg 0 hsgn le_rfl ?_
    positivity
  · refine inT_eq_true_of_signed cfg 0 hsgn ?_ ?_
    · have := pow_pos (by norm_num : (0 : Int) < 2) (cfg.effBits - 1)
      omega
    · positivity

/-- C2 counterexample: `from_bigint(0)` on `Float40` does **not** return the
canonical zero: the stripping loop divides 0 by ten until the exponent
guard stops it, yielding exponent `max_exp + 1 = 32`. -/
theorem C2_counterexample :
    from_bigint Float40 40 0 = some (.ok ⟨32, 0⟩) ∧
    (⟨32, 0⟩ : Floats) ≠ ⟨0, 0⟩ :=
  ⟨rfl, by decide⟩

/-- C2 (amended): `from_decimal(0, prec)` yields the canonical
`{significand: 0, exponent: 0}` for every `prec`, but `from_bigint(0)`
yields `{significand: 0, exponent: max_exp + 1}`. -/
theorem C2_zero_canonicalization (cfg : FCfg) (fuel prec s : Nat)
    (h1 : 1 ≤ cfg.nbits) (h2 : cfg.nbits < cfg.effBits) (h128 : cfg.effBits ≤ 128)
    (hme : max_exp cfg ≤ 254) (hfuel : max_exp cfg + 2 ≤ fuel) :
    from_decimal cfg fuel ⟨0, s⟩ prec = some (.ok ⟨0, 0⟩) ∧
    from_bigint cfg fuel 0 = some (.ok ⟨max_exp cfg + 1, 0⟩) := by
  constructor
  · unfold from_decimal
    rw [if_neg (not_not_intro ⟨h2, h128⟩)]
    rfl
  · unfold from_bigint
    rw [if_neg (not_not_intro ⟨h2, h128⟩),
      stripLoop_zero cfg hme fuel 0 (by omega) (by omega)]
    have hnb : ¬ (test_high_bound cfg < 0 ∨ (0 : Int) < test_low_bound cfg) := by
      push_neg
      exact ⟨test_high_bound_nonneg cfg, test_low_bound_nonpos cfg⟩
    cases hsgn : cfg.signed <;>
      simp only [hsgn, Bool.false_eq_true, if_false, if_true, inT_zero cfg,
        if_pos (by norm_num : -(2 ^ 127 : Int) ≤ 0 ∧ (0 : Int) < 2 ^ 127),
        if_pos (by norm_num : (0 : Int) ≤ 0 ∧ (0 : Int) < 2 ^ 128)] <;>
      rw [if_neg hnb]

/-- C2 witness: the two halves at `Float40`, fuel 40, precision 18. -/
theorem C2_zero_canonicalization_witness :
    from_decimal Float40 40 ⟨0, 7⟩ 18 = some (.ok ⟨0, 0⟩) ∧
    from_bigint Float40 40 0 = some (.ok ⟨max_exp Float40 + 1, 0⟩) :=
  C2_zero_canonicalization Float40 40 18 7 (by decide) (by decide) (by decide)
    (by decide) (by decide)

/-- C6 counterexample: `from_bigint(10^32)` on `Float40` returns `Ok` with
exponent `32`, which exceeds `max_exponent(NBITS) = 31`; no `ExponentTooBig`
error is raised. -/
theorem C6_counterexample :
    from_bigint Float40 40 (10 ^ 32) = some (.ok ⟨32, 1⟩) ∧
    max_exp Float40 < 32 :=
  ⟨rfl, by decide⟩

/-- The final bound-check stage of `from_bigint`: whenever it returns `Ok`,
the exponent is the one the loop produced. -/
theorem post_ok_exponent (cfg : FCfg) (bi : Int) (sg : Option Int) (expo : Nat) (v : Floats)
    (h : (match sg with
          | none => some (Except.error (FloatsError.NumberTooBig bi))
          | some s =>
            if test_high_bound cfg < s ∨ s < test_low_bound cfg then
              some (Except.error (FloatsError.NumberTooBig bi))
            else some (Except.ok (⟨expo, s⟩ : Floats))) = some (Except.ok v)) :
    v.exponent = expo := by
  cases sg with
  | none => simp at h
  | some s =>
    have h' : (if test_high_bound cfg < s ∨ s < test_low_bound cfg then
        some (Except.error (FloatsError.NumberTooBig bi))
      else some (Except.ok (⟨expo, s⟩ : Floats))) = some (Except.ok v) := h
    split at h'
    · simp at h'
    · rw [Option.some_inj] at h'
      cases h'
      rfl

/-- C6 (amended): every `Ok` result of `from_bigint` has exponent at most
`max_exponent(NBITS) + 1` — the loop guard `exponent <= max_exp` is checked
before the increment, so the bound can be overshot by exactly one, and no
`ExponentTooBig` error is ever produced mid-loop. -/
theorem C6_exponent_bound (cfg : FCfg) (fuel : Nat) (bi : Int) (v : Floats)
    (h : from_bigint cfg fuel bi = some (.ok v)) :
    v.exponent ≤ max_exp cfg + 1 := by
  unfold from_bigint at h
  split at h
  · simp at h
  · split at h
    · simp at h
    · rename_i encInt expo heq
      have hexp := stripLoop_exp_bound cfg fuel bi 0 (encInt, expo) (by omega) heq
      have hv := post_ok_exponent cfg bi _ expo v h
      rw [hv]
      simpa using hexp

/-- C6 witness: the theorem applied to the concrete overshooting input. -/
theorem C6_exponent_bound_witness :
    from_bigint Float40 40 (10 ^ 32) = some (.ok ⟨32, 1⟩) ∧
    (⟨32, 1⟩ : Floats).exponent ≤ max_exp Float40 + 1 := by
  have h : from_bigint Float40 40 (10 ^ 32) = some (.ok ⟨32, 1⟩) := rfl
  exact ⟨h, C6_exponent_bound Float40 40 (10 ^ 32) ⟨32, 1⟩ h⟩

/-! ### `from_decimal` loop lemmas, claims C3, C9, C4 -/

/-- When the truncating/stripping loop of `from_decimal` exits, the value
is inside `test_low_bound ..= test_high_bound`: the loop keeps dividing
until it is. -/
theorem decLoop_ok_bounds (cfg : FCfg) :
    ∀ fuel t e t' e', decLoop cfg fuel t e = some (t', e') →
      test_low_bound cfg ≤ t' ∧ t' ≤ test_high_bound cfg := by
  intro fuel
  induction fuel with
  | zero =>
    intro t e t' e' h
    simp [decLoop] at h
  | succ fuel ih =>
    intro t e t' e' h
    rw [decLoop] at h
    split at h
    · exact ih _ _ _ _ h
    · rename_i hcond
      push_neg at hcond
      rw [Option.some_inj] at h
      cases h
      exact ⟨by omega, by omega⟩

/-- The final stage of `from_decimal` (the `inT` conversion after the
loop): an `Ok` result means the loop returned and the value was stored
with the exponent reduced mod 256. -/
theorem dec_post_ok (cfg : FCfg) (r : Option (Int × Nat)) (v : Floats)
    (h : ((match r with
          | none => none
          | some (test, expo) =>
            if inT cfg test then some (Except.ok (⟨expo % 256, test⟩ : Floats))
            else none) : Option (Except FloatsError Floats)) = some (Except.ok v)) :
    ∃ t e2, r = some (t, e2) ∧ v = ⟨e2 % 256, t⟩ := by
  cases r with
  | none => simp at h
  | some p =>
    obtain ⟨t, e2⟩ := p
    have h2 : ((if inT cfg t = true then some (Except.ok (⟨e2 % 256, t⟩ : Floats))
        else none) : Option (Except FloatsError Floats)) = some (Except.ok v) := h
    split at h2
    · rw [Option.some_inj] at h2
      injection h2 with h3
      exact ⟨t, e2, rfl, h3.symm⟩
    · simp at h2

/-- The final stage of `from_decimal` never produces an error value. -/
theorem dec_post_no_error (cfg : FCfg) (r : Option (Int × Nat)) (e : FloatsError) :
    ¬ (((match r with
        | none => none
        | some (test, expo) =>
          if inT cfg test then some (Except.ok (⟨expo % 256, test⟩ : Floats))
          else none) : Option (Except FloatsError Floats)) = some (Except.error e)) := by
  intro h
  cases r with
  | none => simp at h
  | some p =>
    obtain ⟨t, e2⟩ := p
    have h2 : ((if inT cfg t = true then some (Except.ok (⟨e2 % 256, t⟩ : Floats))
        else none) : Option (Except FloatsError Floats)) = some (Except.error e) := h
    split at h2 <;> simp at h2

/-- Inversion for a successful `from_decimal`: either the input decimal is
zero and the result is the canonical zero, or the significand exited the
loop within the `NBITS`-bit bounds. -/
theorem from_decimal_ok_inv (cfg : FCfg) (fuel : Nat) (d : Dec) (prec : Nat) (v : Floats)
    (h : from_decimal cfg fuel d prec = some (.ok v)) :
    (d.m = 0 ∧ v = ⟨0, 0⟩) ∨
    (d.m ≠ 0 ∧ test_low_bound cfg ≤ v.significand ∧
      v.significand ≤ test_high_bound cfg) := by
  unfold from_decimal at h
  split at h
  · simp at h
  · split at h
    · rename_i hm
      rw [Option.some_inj] at h
      injection h with h2
      exact Or.inl ⟨hm, h2.symm⟩
    · rename_i hm
      split at h
      · -- d.scale < prec
        try rw [if_neg (show ¬ (28 : Nat) < 0 by omega)] at h
        try rw [if_neg (show ¬ ¬ d.m % (10 : Int) ^ 0 = 0 by simp)] at h
        obtain ⟨t, e2, hr, hv⟩ := dec_post_ok cfg _ v h
        have hb := decLoop_ok_bounds cfg fuel _ _ t e2 hr
        rw [hv]
        exact Or.inr ⟨hm, hb.1, hb.2⟩
      · split at h
        · simp at h
        · split at h
          · simp at h
          · obtain ⟨t, e2, hr, hv⟩ := dec_post_ok cfg _ v h
            have hb := decLoop_ok_bounds cfg fuel _ _ t e2 hr
            rw [hv]
            exact Or.inr ⟨hm, hb.1, hb.2⟩

/-- C3 counterexample: on `Float40` the decimal `159999999999` at
precision 0 exceeds `test_high_bound = 17179869183` even though it has no
factor of ten to strip, yet `from_decimal` returns `Ok` with the
significand silently truncated to `15999999999` (one decimal digit
dropped), instead of any error. -/
theorem C3_counterexample :
    from_decimal Float40 40 ⟨159999999999, 0⟩ 0 = some (.ok ⟨1, 15999999999⟩) ∧
    test_high_bound Float40 < 159999999999 ∧
    ¬ (159999999999 : Int) % 10 = 0 ∧
    to_bigint ⟨1, 15999999999⟩ ≠ 159999999999 :=
  ⟨rfl, by decide, by decide, by decide⟩

/-- C3 (amended): `from_decimal` never reports overflow at all — after the
exact-representability check the only possible errors are `Precision` (and
the `set_scale` / `Demical` error); a value exceeding the `NBITS`-bit bound
is silently divided by ten (discarding remainders) until it fits. -/
theorem C3_no_overflow_error (cfg : FCfg) (fuel : Nat) (d : Dec) (prec : Nat)
    (e : FloatsError)
    (h : from_decimal cfg fuel d prec = some (.error e)) :
    e = .Demical ∨
    e = .Precision ⟨d.m, if d.scale < prec then 0 else d.scale - prec⟩ prec := by
  unfold from_decimal at h
  split at h
  · simp at h
  · split at h
    · simp at h
    · split at h
      · -- d.scale < prec: no error can come out of the loop stage
        try rw [if_neg (show ¬ (28 : Nat) < 0 by omega)] at h
        try rw [if_neg (show ¬ ¬ d.m % (10 : Int) ^ 0 = 0 by simp)] at h
        exact absurd h (dec_post_no_error cfg _ e)
      · rename_i hsp
        split at h
        · rw [Option.some_inj] at h
          injection h with h2
          exact Or.inl h2.symm
        · split at h
          · rw [Option.some_inj] at h
            injection h with h2
            refine Or.inr ?_
            rw [if_neg hsp]
            exact h2.symm
          · exact absurd h (dec_post_no_error cfg _ e)

/-- C3 witness: a decimal with more fractional digits than `prec` allows
produces exactly the `Precision` error. -/
theorem C3_no_overflow_error_witness :
    (FloatsError.Precision ⟨5, 1⟩ 1 = .Demical ∨
      FloatsError.Precision ⟨5, 1⟩ 1 =
        .Precision ⟨(5 : Int), if (2 : Nat) < 1 then 0 else 2 - 1⟩ 1) := by
  have h : from_decimal Float40 40 ⟨5, 2⟩ 1 = some (.error (.Precision ⟨5, 1⟩ 1)) := rfl
  exact C3_no_overflow_error Float40 40 ⟨5, 2⟩ 1 (.Precision ⟨5, 1⟩ 1) h

theorem sig_natAbs_lt (cfg : FCfg) (s : Int) (h1 : 1 ≤ cfg.nbits)
    (hlo : test_low_bound cfg ≤ s) (hhi : s ≤ test_high_bound cfg) :
    s.natAbs < 2 ^ cfg.nbits := by
  have hcn : ((2 ^ cfg.nbits : Nat) : Int) = 2 ^ cfg.nbits := by push_cast; ring
  have hcn1 : ((2 ^ (cfg.nbits - 1) : Nat) : Int) = 2 ^ (cfg.nbits - 1) := by
    push_cast; ring
  have hmono : (2 ^ (cfg.nbits - 1) : Nat) < 2 ^ cfg.nbits :=
    pow_lt_pow_right₀ (by norm_num) (by omega)
  unfold test_low_bound at hlo
  unfold test_high_bound at hhi
  cases hsgn : cfg.signed
  · rw [hsgn] at hlo hhi
    simp only [Bool.false_eq_true, if_false] at hlo hhi
    rw [← hcn] at hhi
    omega
  · rw [hsgn] at hlo hhi
    simp only [if_true] at hlo hhi
    rw [← hcn1] at hlo hhi
    omega

/-- `encode` succeeds for any value whose exponent is in range and whose
significand is strictly inside `(-2^NBITS, 2^NBITS)`. -/
theorem encode_total (cfg : FCfg) (v : Floats)
    (hexp : v.exponent ≤ max_exp cfg)
    (hlo : -(2 ^ cfg.nbits : Int) < v.significand)
    (hhi : v.significand < 2 ^ cfg.nbits) :
    ∃ bs, encode cfg v = some bs := by
  have hcn : ((2 ^ cfg.nbits : Nat) : Int) = 2 ^ cfg.nbits := by push_cast; ring
  rcases lt_trichotomy v.significand 0 with hneg | hzr | hpos
  · have henc := tei_neg cfg v hexp hneg hlo
    have hFn : ((2 ^ cfg.nbits : Int) + v.significand).toNat < 2 ^ cfg.nbits := by
      omega
    obtain ⟨bs, hbs, _, _⟩ := encode_eq cfg v _ henc (enc_lt cfg _ _ hexp hFn)
    exact ⟨bs, hbs⟩
  · have henc := tei_zero cfg v hexp hzr
    obtain ⟨bs, hbs, _, _⟩ := encode_eq cfg v 0 henc (by positivity)
    exact ⟨bs, hbs⟩
  · have henc := tei_pos cfg v hexp hpos
    have hFn : v.significand.toNat < 2 ^ cfg.nbits := by
      omega
    obtain ⟨bs, hbs, _, _⟩ := encode_eq cfg v _ henc (enc_lt cfg _ _ hexp hFn)
    exact ⟨bs, hbs⟩

/-- C9 counterexample: `from_decimal` does not check the exponent bound, so
`from_decimal(1, prec = 32)` on `Float40` succeeds with exponent 32 > 31 =
`max_exp`, and `encode` on that result panics (`to_encoded_int().unwrap()`
on an `ExponentTooBig` error). -/
theorem C9_counterexample :
    from_decimal Float40 40 ⟨1, 0⟩ 32 = some (.ok ⟨32, 1⟩) ∧
    to_encoded_int Float40 ⟨32, 1⟩ = .error .ExponentTooBig ∧
    encode Float40 ⟨32, 1⟩ = none :=
  ⟨rfl, rfl, rfl⟩

/-- C9 (amended): whenever `from_decimal` succeeds **and** the returned
exponent is within `max_exp`, `encode` does not panic (`to_encoded_int`
succeeds and the bytes fit the fixed length); the extra exponent condition
is needed because `from_decimal` itself never checks it. -/
theorem C9_encode_no_panic (cfg : FCfg) (fuel : Nat) (d : Dec) (prec : Nat) (v : Floats)
    (h1 : 1 ≤ cfg.nbits)
    (h : from_decimal cfg fuel d prec = some (.ok v))
    (hexp : v.exponent ≤ max_exp cfg) :
    ∃ bs, encode cfg v = some bs := by
  have hcn : ((2 ^ cfg.nbits : Nat) : Int) = 2 ^ cfg.nbits := by push_cast; ring
  have hpow0 : (0 : Int) < 2 ^ cfg.nbits := by positivity
  rcases from_decimal_ok_inv cfg fuel d prec v h with ⟨_, hv⟩ | ⟨_, hlo, hhi⟩
  · subst hv
    exact encode_total cfg ⟨0, 0⟩ (Nat.zero_le _) (by simpa using hpow0) (by simpa using hpow0)
  · have habs := sig_natAbs_lt cfg v.significand h1 hlo hhi
    refine encode_total cfg v hexp ?_ ?_ <;> omega

/-- C9 witness: the repository's own `test_float40` input encodes fine. -/
theorem C9_encode_no_panic_witness :
    ∃ bs, encode Float40 ⟨13, 123456⟩ = some bs := by
  have h : from_decimal Float40 40 ⟨123456, 5⟩ 18 = some (.ok ⟨13, 123456⟩) := rfl
  exact C9_encode_no_panic Float40 40 ⟨123456, 5⟩ 18 ⟨13, 123456⟩ (by decide) h (by decide)

/-! ### Claim C4 -/

/-- C4 counterexample: `from_decimal(159999999999, prec = 0)` on `Float40`
succeeds (after a lossy division by ten), but converting back with
`to_decimal(0)` yields `159999999990`, not the original decimal. -/
theorem C4_counterexample :
    from_decimal Float40 40 ⟨159999999999, 0⟩ 0 = some (.ok ⟨1, 15999999999⟩) ∧
    to_decimal 0 ⟨1, 15999999999⟩ = some ⟨159999999990, 0⟩ ∧
    ¬ decValEq ⟨159999999990, 0⟩ ⟨159999999999, 0⟩ :=
  ⟨rfl, rfl, by decide⟩

/-- C4 (amended): if `from_decimal(d, prec)` succeeds and the conversion
was lossless — the returned value satisfies
`significand * 10^exponent * 10^d.scale = d.mantissa * 10^prec`, i.e. every
division the loop performed was exact and the `u32 → u8` exponent cast did
not truncate (`prec ≤ exponent + 28` rules the latter out) — then
`to_decimal(prec)` succeeds and returns a decimal equal in value to `d`.
The mantissa bound `2^96` and `NBITS ≤ 96` reflect the `rust_decimal`
invariants. -/
theorem C4_decimal_round_trip (cfg : FCfg) (fuel : Nat) (d : Dec) (prec : Nat)
    (v : Floats)
    (h1 : 1 ≤ cfg.nbits) (hn96 : cfg.nbits ≤ 96) (hm96 : d.m.natAbs < 2 ^ 96)
    (h : from_decimal cfg fuel d prec = some (.ok v))
    (hexact : v.significand * 10 ^ v.exponent * 10 ^ d.scale = d.m * 10 ^ prec)
    (hpe : prec ≤ v.exponent + 28) :
    ∃ d2, to_decimal prec v = some d2 ∧ decValEq d2 d := by
  rcases from_decimal_ok_inv cfg fuel d prec v h with ⟨hm, hv⟩ | ⟨hm, hlo, hhi⟩
  · -- zero input: result is canonical zero
    subst hv
    by_cases hp : 0 < prec
    · refine ⟨⟨0, prec⟩, ?_, ?_⟩
      · unfold to_decimal
        rw [if_neg (by norm_num), if_pos (by simpa using hp), if_pos (by simpa using hpe)]
        simp
      · unfold decValEq
        simp [hm]
    · have hp0 : prec = 0 := by omega
      subst hp0
      refine ⟨⟨0, 0⟩, ?_, ?_⟩
      · unfold to_decimal
        rw [if_neg (by norm_num), if_neg (by simp)]
        norm_num
      · unfold decValEq
        simp [hm]
  · -- nonzero input
    have hsne : v.significand ≠ 0 := by
      intro h0
      have hz : d.m * 10 ^ prec = 0 := by
        rw [← hexact, h0]
        ring
      rcases mul_eq_zero.mp hz with h' | h'
      · exact hm h'
      · exact pow_ne_zero prec (by norm_num : (10 : Int) ≠ 0) h'
    have habs : v.significand.natAbs < 2 ^ 96 := by
      have hlt := sig_natAbs_lt cfg v.significand h1 hlo hhi
      have hle : (2 : Nat) ^ cfg.nbits ≤ 2 ^ 96 :=
        Nat.pow_le_pow_right (by norm_num) hn96
      omega
    by_cases hep : v.exponent < prec
    · -- to_decimal sets the scale to prec - exponent
      refine ⟨⟨v.significand, prec - v.exponent⟩, ?_, ?_⟩
      · unfold to_decimal
        rw [if_neg (not_not_intro habs), if_pos hep, if_pos (by omega)]
      · unfold decValEq
        simp only
        have h10 : (10 : Int) ^ v.exponent ≠ 0 := pow_ne_zero _ (by norm_num)
        apply mul_right_cancel₀ h10
        calc v.significand * 10 ^ d.scale * 10 ^ v.exponent
            = v.significand * 10 ^ v.exponent * 10 ^ d.scale := by ring
          _ = d.m * 10 ^ prec := hexact
          _ = d.m * 10 ^ (prec - v.exponent) * 10 ^ v.exponent := by
              rw [mul_assoc, ← pow_add]
              congr 2
              omega
    · -- to_decimal multiplies by 10^(exponent - prec)
      push_neg at hep
      have hppe : v.significand * 10 ^ (v.exponent - prec) * 10 ^ d.scale = d.m := by
        have h10 : (10 : Int) ^ prec ≠ 0 := pow_ne_zero _ (by norm_num)
        apply mul_right_cancel₀ h10
        calc v.significand * 10 ^ (v.exponent - prec) * 10 ^ d.scale * 10 ^ prec
            = v.significand * (10 ^ (v.exponent - prec) * 10 ^ prec) * 10 ^ d.scale := by
              ring
          _ = v.significand * 10 ^ v.exponent * 10 ^ d.scale := by
              rw [← pow_add]
              congr 3
              omega
          _ = d.m * 10 ^ prec := hexact
      have hnabs := congrArg Int.natAbs hppe
      rw [Int.natAbs_mul, Int.natAbs_mul, Int.natAbs_pow, Int.natAbs_pow] at hnabs
      have hten : ((10 : Int)).natAbs = 10 := rfl
      rw [hten] at hnabs
      have hs1 : 1 ≤ v.significand.natAbs := Int.natAbs_pos.mpr hsne
      have hsc1 : 1 ≤ (10 : Nat) ^ d.scale := Nat.one_le_pow _ _ (by norm_num)
      have hep1 : 1 ≤ (10 : Nat) ^ (v.exponent - prec) := Nat.one_le_pow _ _ (by norm_num)
      have habs2 : (v.significand * 10 ^ (v.exponent - prec)).natAbs < 2 ^ 96 := by
        have : (v.significand * 10 ^ (v.exponent - prec)).natAbs =
            v.significand.natAbs * 10 ^ (v.exponent - prec) := by
          rw [Int.natAbs_mul, Int.natAbs_pow, hten]
        nlinarith [hnabs, hm96, hsc1]
      have hle28 : v.exponent - prec ≤ 28 := by
        have hplem : (10 : Nat) ^ (v.exponent - prec) ≤ d.m.natAbs := by
          calc (10 : Nat) ^ (v.exponent - prec)
              ≤ v.significand.natAbs * 10 ^ (v.exponent - prec) :=
                Nat.le_mul_of_pos_left _ (by omega)
            _ ≤ v.significand.natAbs * 10 ^ (v.exponent - prec) * 10 ^ d.scale :=
                Nat.le_mul_of_pos_right _ (by omega)
            _ = d.m.natAbs := hnabs
        have hlt29 : (10 : Nat) ^ (v.exponent - prec) < 10 ^ 29 := by
          calc (10 : Nat) ^ (v.exponent - prec) ≤ d.m.natAbs := hplem
            _ < 2 ^ 96 := hm96
            _ < 10 ^ 29 := by norm_num
        have := (pow_lt_pow_iff_right₀ (by norm_num : (1 : Nat) < 10)).mp hlt29
        omega
      refine ⟨⟨v.significand * 10 ^ (v.exponent - prec), 0⟩, ?_, ?_⟩
      · unfold to_decimal
        rw [if_neg (not_not_intro habs), if_neg (by omega), if_pos ⟨hle28, habs2⟩]
      · unfold decValEq
        simp only
        rw [pow_zero, mul_one, hppe]

/-- C4 witness: the repository's own `test_float40` round trip, checked
through the amended theorem. -/
theorem C4_decimal_round_trip_witness :
    ∃ d2, to_decimal 18 ⟨13, 123456⟩ = some d2 ∧ decValEq d2 ⟨123456, 5⟩ := by
  have h : from_decimal Float40 40 ⟨123456, 5⟩ 18 = some (.ok ⟨13, 123456⟩) := rfl
  exact C4_decimal_round_trip Float40 40 ⟨123456, 5⟩ 18 ⟨13, 123456⟩ (by decide)
    (by decide) (by decide) h (by decide) (by decide)

end Fluidex
